import Mathlib

/-!
Verification of the Attack Path Mapper engine (`attack_path_mapper.py`).

The Python source is shallowly embedded below: Python dicts become
insertion-ordered association lists (last-wins value overwrite, position
kept, as CPython dicts behave), the `networkx.DiGraph` becomes an
insertion-ordered adjacency association list, Python floats become `Rat`,
and the uncaught `networkx.NodeNotFound` exception raised by
`nx.all_simple_paths` when the source node is absent becomes an `Except`
error value.  Enumeration order of `nx.all_simple_paths` (depth-first,
children in adjacency insertion order, a path emitted as soon as a target
is reached and before deeper extensions) is modelled exactly, including
the quirk that an absent target string `"END"` is expanded by
`set(target)` into the three single-character targets.
-/

/-- Python `str.lower()` (ASCII suffices for the identifiers involved). -/
def lowerStr (s : String) : String := String.mk (s.data.map Char.toLower)

/-- Test `charsLead n h` decides whether `n` is a prefix of `h`. -/
def charsLead : List Char → List Char → Bool
  | [], _ => true
  | _ :: _, [] => false
  | a :: as, b :: bs => a == b && charsLead as bs

/-- Test `charsSub n h` decides whether `n` occurs as a contiguous substring of `h`. -/
def charsSub (needle : List Char) : List Char → Bool
  | [] => charsLead needle []
  | c :: rest => charsLead needle (c :: rest) || charsSub needle rest

/-- Python's `needle in hay` substring test on strings. -/
def strContains (hay needle : String) : Bool := charsSub needle.data hay.data

/-- Lookup in an insertion-ordered association list (Python `d[k]` / `d.get(k)`). -/
def dictGet? {α : Type} : List (String × α) → String → Option α
  | [], _ => none
  | (k', v) :: rest, k => if k' = k then some v else dictGet? rest k

/-- Key-membership in an association list (Python `k in d`). -/
def dictHas {α : Type} : List (String × α) → String → Bool
  | [], _ => false
  | (k', _) :: rest, k => if k' = k then true else dictHas rest k

/-- Python `d[k] = v`: overwrite in place if the key exists (keeping its
position), otherwise append at the end. -/
def dictSet {α : Type} : List (String × α) → String → α → List (String × α)
  | [], k, v => [(k, v)]
  | (k', v') :: rest, k, v =>
    if k' = k then (k', v) :: rest else (k', v') :: dictSet rest k v

/-- The `class AttackTechnique(Enum)` of the source. -/
inductive AttackTechnique where
  | BRUTE_FORCE | EXPLOIT_PUBLIC | VALID_ACCOUNTS | PRIVILEGE_ESC | SQLI
  | XSS | DATA_EXFIL | LATERAL_MOVE | CREDENTIAL_DUMP | MISCONFIG_EXPLOIT
  deriving DecidableEq, Repr

/-- The `@dataclass AttackNode` of the source. -/
structure AttackNode where
  id : String
  description : String
  technique : AttackTechnique
  severity : Nat
  exploitability : Rat
  prerequisites : List String
  deriving DecidableEq, Repr

/-- Method `AttackNode.get_risk_score`: `severity * 0.7 + exploitability * 10 * 0.3`. -/
def AttackNode.get_risk_score (n : AttackNode) : Rat :=
  (n.severity : Rat) * 0.7 + n.exploitability * 10 * 0.3

/-- The `@dataclass AttackPath` of the source. -/
structure AttackPath where
  nodes : List AttackNode
  total_risk : Rat
  likelihood : Rat
  impact_score : Nat
  path_description : String
  deriving DecidableEq, Repr

/-- A raw vulnerability record as the engine reads it: the `type`, `id` and
`description` keys may each be absent (the engine ignores all other keys). -/
structure Vuln where
  type : Option String
  id : Option String
  description : Option String
  deriving DecidableEq, Repr

/-- The `mapping` rule table inside `_vulnerability_to_node`:
type string ↦ (technique, severity, exploitability, prerequisites). -/
def technique_mapping : List (String × (AttackTechnique × Nat × Rat × List String)) :=
  [("ssh_weak_auth", (.BRUTE_FORCE, 7, 0.7, [])),
   ("open_port", (.EXPLOIT_PUBLIC, 5, 0.5, [])),
   ("web_sqli", (.SQLI, 9, 0.8, [])),
   ("web_xss", (.XSS, 6, 0.6, [])),
   ("misconfigured_s3", (.MISCONFIG_EXPLOIT, 8, 0.9, [])),
   ("privilege_escalation", (.PRIVILEGE_ESC, 9, 0.6, ["ssh_weak_auth", "web_sqli"])),
   ("credential_reuse", (.VALID_ACCOUNTS, 7, 0.7, ["ssh_weak_auth", "web_sqli"])),
   ("data_exfiltration", (.DATA_EXFIL, 10, 0.8, ["privilege_escalation", "misconfigured_s3"]))]

/-- Method `AttackPathMapper._vulnerability_to_node`: look the lower-cased `type` up
in the rule table; unknown (or absent) types produce no node. -/
def vulnerability_to_node (v : Vuln) : Option AttackNode :=
  let vuln_type := lowerStr (v.type.getD "")
  match dictGet? technique_mapping vuln_type with
  | some (technique, severity, exploitability, prereqs) =>
    some { id := v.id.getD vuln_type
           description := v.description.getD (vuln_type ++ " vulnerability")
           technique := technique
           severity := severity
           exploitability := exploitability
           prerequisites := prereqs }
  | none => none

/-- The `networkx.DiGraph`: nodes in insertion order, each with its ordered
successor list (successor, edge weight). -/
abbrev DiGraph : Type := List (String × List (String × Rat))

/-- The successor list of `u` (empty when `u` is not a node). -/
def adjList (g : DiGraph) (u : String) : List (String × Rat) :=
  (dictGet? g u).getD []

/-- The node list of the graph, in insertion order. -/
def nodesOfG (g : DiGraph) : List String := g.map Prod.fst

/-- Method `G.add_node`: append the node with an empty successor list unless present. -/
def addNode (g : DiGraph) (x : String) : DiGraph :=
  if dictHas g x then g else g ++ [(x, [])]

/-- Method `G.add_edge(u, v, weight=w)`: add missing endpoints as nodes, then set
`adj[u][v] = w` (overwriting the weight if the edge already exists). -/
def addEdge (g : DiGraph) (u v : String) (w : Rat) : DiGraph :=
  let g2 := addNode (addNode g u) v
  g2.map (fun p => if p.1 = u then (p.1, dictSet p.2 v w) else p)

/-- The directed edge relation of the graph (weights disregarded). -/
def HasEdge (g : DiGraph) (u v : String) : Prop :=
  v ∈ (adjList g u).map Prod.fst

instance (g : DiGraph) (u v : String) : Decidable (HasEdge g u v) := by
  unfold HasEdge; infer_instance

/-- The node-insertion half of `build_attack_graph`: fold the translated
nodes into the `attack_nodes` dict and the graph's vertex set. -/
def buildState (vulns : List Vuln) : List (String × AttackNode) × DiGraph :=
  vulns.foldl
    (fun st v =>
      match vulnerability_to_node v with
      | some node => (dictSet st.1 node.id node, addNode st.2 node.id)
      | none => st)
    ([], [])

/-- Method `AttackPathMapper._create_attack_edges`: for every node, an edge from each
prerequisite that is present as a node id, and a `START` edge exactly when the
declared prerequisite list is empty. -/
def create_attack_edges (nodes : List (String × AttackNode)) (g : DiGraph) : DiGraph :=
  nodes.foldl
    (fun g p =>
      let g1 := p.2.prerequisites.foldl
        (fun g prereq =>
          if dictHas nodes prereq then addEdge g prereq p.1 p.2.get_risk_score else g)
        g
      if p.2.prerequisites = [] then addEdge g1 "START" p.1 0 else g1)
    g

/-- Method `AttackPathMapper.build_attack_graph`: translate all records, then wire
the attack-flow edges. -/
def build_attack_graph (vulns : List Vuln) : List (String × AttackNode) × DiGraph :=
  let st := buildState vulns
  (st.1, create_attack_edges st.1 st.2)

example : (build_attack_graph [⟨some "ssh_weak_auth", none, none⟩]).2 =
    [("ssh_weak_auth", []), ("START", [("ssh_weak_auth", 0)])] := by decide

/-- The loop in `find_attack_paths` that attaches the virtual `END` anchor:
for every node whose id contains `'data_exfiltration'` or
`'privilege_escalation'` as a substring, add the edge `node → END`. -/
def add_end_edges (nodes : List (String × AttackNode)) (g : DiGraph) : DiGraph :=
  nodes.foldl
    (fun g p =>
      if strContains p.1 "data_exfiltration" || strContains p.1 "privilege_escalation"
      then addEdge g p.1 "END" p.2.get_risk_score
      else g)
    g

/-- The error raised by `networkx` when `all_simple_paths` is given a source
node that is not in the graph; the Python code does not catch it (its
`except` clause names `NetworkXNoPath`, which `all_simple_paths` never raises). -/
inductive NxErr where
  | nodeNotFound
  deriving DecidableEq, Repr

deriving instance DecidableEq for Except

/-- The depth-first enumeration performed by `nx.all_simple_paths`: children
are visited in adjacency insertion order, already-visited vertices are
skipped, and a path is emitted the moment a target vertex is reached, before
its deeper extensions.  `fuel` only forces termination; any value at least
the number of graph vertices plus one is beyond what a simple path can use. -/
def dfsPaths (g : DiGraph) (targets : List String) :
    Nat → List String → String → List (List String)
  | 0, _, _ => []
  | Nat.succ fuel, visited, u =>
    (adjList g u).flatMap
      (fun cw =>
        if cw.1 ∈ visited then []
        else
          (if cw.1 ∈ targets then [visited ++ [cw.1]] else []) ++
            dfsPaths g targets fuel (visited ++ [cw.1]) cw.1)

/-- Call `list(nx.all_simple_paths(G, 'START', 'END'))`.  If `'START'` is not a
vertex, `NodeNotFound` is raised.  If `'END'` is not a vertex, networkx
falls back to `set(target)`, i.e. the single-character targets
`{'E', 'N', 'D'}`, and the enumeration simply yields whatever reaches those
(normally nothing) instead of raising. -/
def all_simple_paths (g : DiGraph) : Except NxErr (List (List String)) :=
  if dictHas g "START" then
    let targets := if dictHas g "END" then ["END"] else ["E", "N", "D"]
    .ok (dfsPaths g targets (g.length + 1) ["START"] "START")
  else
    .error .nodeNotFound

/-- Method `AttackPathMapper._evaluate_path`: strip the anchors (`path[1:-1]`), look
the interior ids up in `attack_nodes`, reject an empty interior, and compute
the aggregates (sum of risk scores, min exploitability, max severity). -/
def evaluate_path (nodes : List (String × AttackNode)) (path : List String) :
    Option AttackPath :=
  match (path.drop 1).dropLast.mapM (fun nid => dictGet? nodes nid) with
  | none => none
  | some [] => none
  | some (first :: rest) =>
    some { nodes := first :: rest
           total_risk := ((first :: rest).map AttackNode.get_risk_score).sum
           likelihood := rest.foldl (fun a n => min a n.exploitability) first.exploitability
           impact_score := rest.foldl (fun a n => max a n.severity) first.severity
           path_description :=
             String.intercalate " → " ((first :: rest).map AttackNode.description) }

/-- Python's stable `list.sort(key=..., reverse=True)` on `total_risk`,
as insertion sort: an element moves ahead only of strictly lower keys, so
equal keys keep their original relative order. -/
def insertDesc (x : AttackPath) : List AttackPath → List AttackPath
  | [] => [x]
  | y :: ys =>
    if y.total_risk ≤ x.total_risk then x :: y :: ys else y :: insertDesc x ys

/-- Stable descending sort of paths by `total_risk`. -/
def sortByRiskDesc : List AttackPath → List AttackPath
  | [] => []
  | x :: xs => insertDesc x (sortByRiskDesc xs)

/-- Method `AttackPathMapper.find_attack_paths`: attach the END edges, enumerate all
simple START→END paths, evaluate only the first `max_paths` of them
(`all_paths[:max_paths]` — BEFORE sorting), sort those by descending
`total_risk`, and truncate again.  The pair returned is (the graph as the
method leaves it, the result or the uncaught exception). -/
def find_attack_paths (nodes : List (String × AttackNode)) (g : DiGraph)
    (max_paths : Nat) : DiGraph × Except NxErr (List AttackPath) :=
  let g2 := add_end_edges nodes g
  match all_simple_paths g2 with
  | .error e => (g2, .error e)
  | .ok all_paths =>
    let paths := (all_paths.take max_paths).filterMap (evaluate_path nodes)
    (g2, .ok ((sortByRiskDesc paths).take max_paths))

/-- The number of paths the enumeration inside `find_attack_paths`
materialises (`len(list(nx.all_simple_paths(...)))`); it does not depend on
`max_paths`. -/
def pathsConsidered (nodes : List (String × AttackNode)) (g : DiGraph) : Nat :=
  match all_simple_paths (add_end_edges nodes g) with
  | .ok l => l.length
  | .error _ => 0


/-- Four recognised records (types only): `misconfigured_s3`, `ssh_weak_auth`,
`privilege_escalation`, `data_exfiltration`, in that input order.  The graph
they build admits exactly three simple START→END paths. -/
def exVulns : List Vuln :=
  [⟨some "misconfigured_s3", none, none⟩, ⟨some "ssh_weak_auth", none, none⟩,
   ⟨some "privilege_escalation", none, none⟩, ⟨some "data_exfiltration", none, none⟩]

/-- The `attack_nodes` dict built from `exVulns`. -/
def exNodes : List (String × AttackNode) := (build_attack_graph exVulns).1

/-- The graph built from `exVulns`. -/
def exGraph : DiGraph := (build_attack_graph exVulns).2

/-- A single record whose declared prerequisites are unmet in this run. -/
def peVulns : List Vuln := [⟨some "privilege_escalation", none, none⟩]

/-- A record with a custom id naming a credential-dumping outcome: the
translator keys off `type`, so it is accepted, and the node id becomes
`credential_dumping`. -/
def cdVulns : List Vuln := [⟨some "ssh_weak_auth", some "credential_dumping", none⟩]

/-- C1: the claim is false of the code — `find_attack_paths` slices
`all_paths[:max_paths]` BEFORE sorting.  On `exVulns` (three candidate
paths, first enumerated total 17.7, globally best 24.5) requesting
`max_paths = 1` returns the first-enumerated path (17.7), while
`max_paths = 3` shows 24.5 was among the candidates. -/
theorem find_attack_paths_truncates_before_sorting :
    ((find_attack_paths exNodes exGraph 1).2.map
        (fun l => l.map (fun p => p.nodes.map AttackNode.id)) =
      .ok [["misconfigured_s3", "data_exfiltration"]]) ∧
    (all_simple_paths (add_end_edges exNodes exGraph) =
      .ok [["START", "misconfigured_s3", "data_exfiltration", "END"],
           ["START", "ssh_weak_auth", "privilege_escalation", "data_exfiltration", "END"],
           ["START", "ssh_weak_auth", "privilege_escalation", "END"]]) ∧
    ((evaluate_path exNodes
        ["START", "misconfigured_s3", "data_exfiltration", "END"]).map
        AttackPath.total_risk = some 17.7) ∧
    ((evaluate_path exNodes
        ["START", "ssh_weak_auth", "privilege_escalation", "data_exfiltration", "END"]).map
        AttackPath.total_risk = some 24.5) ∧
    (17.7 : Rat) < 24.5 := by
  refine ⟨by decide, by decide, ?_, ?_, by norm_num⟩ <;>
    · simp [evaluate_path, exNodes, build_attack_graph, buildState, vulnerability_to_node,
        technique_mapping, dictGet?, dictSet, lowerStr, AttackNode.get_risk_score,
        List.mapM, List.mapM.loop]
      norm_num

/-- C3: the claim is false of the code — when no node lacks declared
prerequisites the `START` vertex is never created, and
`nx.all_simple_paths` then raises `NodeNotFound`, which the
`except nx.NetworkXNoPath` clause does not catch; `find_attack_paths`
propagates the exception instead of returning `[]`. -/
theorem find_attack_paths_raises_when_start_absent :
    (find_attack_paths (build_attack_graph peVulns).1
        (build_attack_graph peVulns).2 5).2 = .error .nodeNotFound := by
  rfl

/-- C2 counterexample: the single node built from `peVulns` declares
prerequisites `ssh_weak_auth` and `web_sqli`, neither of which is present
in this run, yet NO edge `START → privilege_escalation` is added — the code
tests `if not node.prerequisites`, i.e. only whether the declared list is
empty, not whether any prerequisite is satisfied. -/
theorem no_start_edge_despite_unmet_prereqs :
    ((build_attack_graph peVulns).1.map (fun p => (p.1, p.2.prerequisites)) =
      [("privilege_escalation", ["ssh_weak_auth", "web_sqli"])]) ∧
    dictHas (build_attack_graph peVulns).1 "ssh_weak_auth" = false ∧
    dictHas (build_attack_graph peVulns).1 "web_sqli" = false ∧
    ¬ HasEdge (build_attack_graph peVulns).2 "START" "privilege_escalation" := by
  refine ⟨by rfl, by rfl, by rfl, by decide⟩

/-- C5 counterexample: a node whose identifier is `credential_dumping` (a
credential-dumping culmination) receives NO edge to `END` — the code's
objective list is only `['data_exfiltration', 'privilege_escalation']`. -/
theorem credential_dumping_node_gets_no_end_edge :
    "credential_dumping" ∈
      nodesOfG (find_attack_paths (build_attack_graph cdVulns).1
        (build_attack_graph cdVulns).2 5).1 ∧
    ¬ HasEdge (find_attack_paths (build_attack_graph cdVulns).1
        (build_attack_graph cdVulns).2 5).1 "credential_dumping" "END" := by
  constructor <;> decide

/-- C6 counterexample: running path enumeration does NOT leave the graph
unchanged — `find_attack_paths` adds the `END` vertex and the
`privilege_escalation → END` edge that the builder had not created. -/
theorem find_attack_paths_mutates_graph :
    ¬ HasEdge (build_attack_graph peVulns).2 "privilege_escalation" "END" ∧
    "END" ∉ nodesOfG (build_attack_graph peVulns).2 ∧
    HasEdge (find_attack_paths (build_attack_graph peVulns).1
        (build_attack_graph peVulns).2 5).1 "privilege_escalation" "END" ∧
    "END" ∈ nodesOfG (find_attack_paths (build_attack_graph peVulns).1
        (build_attack_graph peVulns).2 5).1 := by
  refine ⟨by decide, by decide, by decide, by decide⟩

/-- A throwaway node used only to give `Option.getD` a default. -/
def dummyNode : AttackNode :=
  { id := "", description := "", technique := .BRUTE_FORCE, severity := 0,
    exploitability := 0, prerequisites := [] }

theorem dictGet?_dictSet {α : Type} (d : List (String × α)) (k : String) (v : α)
    (x : String) :
    dictGet? (dictSet d k v) x = if k = x then some v else dictGet? d x := by
  induction d with
  | nil => simp [dictSet, dictGet?]
  | cons p rest ih =>
    obtain ⟨k', v'⟩ := p
    by_cases hk : k' = k
    · subst hk
      by_cases hx : k' = x
      · subst hx
        simp [dictSet, dictGet?]
      · have hx2 : ¬ x = k' := fun h => hx h.symm
        simp [dictSet, dictGet?, hx, hx2]
    · by_cases hx : k' = x
      · subst hx
        have hk2 : ¬ k = k' := fun h => hk h.symm
        simp [dictSet, dictGet?, hk, hk2]
      · simp [dictSet, dictGet?, hk, hx, ih]

theorem dictHas_iff_mem_keys {α : Type} (d : List (String × α)) (k : String) :
    dictHas d k = true ↔ k ∈ d.map Prod.fst := by
  induction d with
  | nil => simp [dictHas]
  | cons p rest ih =>
    obtain ⟨k', v'⟩ := p
    by_cases h : k' = k
    · subst h
      simp [dictHas]
    · simp only [dictHas, if_neg h, List.map_cons, List.mem_cons, ih]
      constructor
      · exact fun hm => Or.inr hm
      · rintro (he | hm)
        · exact absurd he.symm h
        · exact hm

theorem keys_dictSet {α : Type} (d : List (String × α)) (k : String) (v : α) :
    (dictSet d k v).map Prod.fst =
      if dictHas d k then d.map Prod.fst else d.map Prod.fst ++ [k] := by
  induction d with
  | nil => simp [dictSet, dictHas]
  | cons p rest ih =>
    obtain ⟨k', v'⟩ := p
    by_cases h : k' = k
    · subst h
      simp [dictSet, dictHas]
    · by_cases h2 : dictHas rest k = true <;>
        simp [dictSet, dictHas, h, h2, ih]

theorem nodup_keys_dictSet {α : Type} (d : List (String × α)) (k : String) (v : α)
    (h : (d.map Prod.fst).Nodup) : ((dictSet d k v).map Prod.fst).Nodup := by
  rw [keys_dictSet]
  by_cases hk : dictHas d k = true
  · simpa [hk]
  · have : k ∉ d.map Prod.fst := fun hm => hk ((dictHas_iff_mem_keys d k).mpr hm)
    simp [hk, List.nodup_append, this, h]

theorem mem_dictSet {α : Type} (d : List (String × α)) (k : String) (v : α)
    (p : String × α) (hp : p ∈ dictSet d k v) : p = (k, v) ∨ p ∈ d := by
  induction d with
  | nil => simpa [dictSet] using hp
  | cons q rest ih =>
    obtain ⟨k', v'⟩ := q
    by_cases h : k' = k
    · subst h
      simp only [dictSet, List.mem_cons, eq_self_iff_true, ite_true] at hp
      rcases hp with hp | hp
      · subst hp; exact .inl rfl
      · exact .inr (List.mem_cons_of_mem _ hp)
    · simp only [dictSet, if_neg h, List.mem_cons] at hp
      rcases hp with hp | hp
      · exact .inr (by simp [hp])
      · rcases ih hp with h1 | h1
        · exact .inl h1
        · exact .inr (List.mem_cons_of_mem _ h1)

theorem dictGet?_eq_some_of_mem {α : Type} (d : List (String × α))
    (hd : (d.map Prod.fst).Nodup) (p : String × α) (hp : p ∈ d) :
    dictGet? d p.1 = some p.2 := by
  induction d with
  | nil => cases hp
  | cons q rest ih =>
    rw [List.map_cons, List.nodup_cons] at hd
    rcases List.mem_cons.mp hp with h | h
    · subst h; simp [dictGet?]
    · have hne : q.1 ≠ p.1 := fun he => hd.1 (he ▸ List.mem_map_of_mem Prod.fst h)
      simpa [dictGet?, hne] using ih hd.2 h

theorem mem_of_dictGet?_eq_some {α : Type} (d : List (String × α)) (x : String)
    (v : α) (h : dictGet? d x = some v) : (x, v) ∈ d := by
  induction d with
  | nil => simp [dictGet?] at h
  | cons q rest ih =>
    obtain ⟨k', v'⟩ := q
    by_cases hq : k' = x
    · subst hq
      simp only [dictGet?, Option.some.injEq, eq_self_iff_true, ite_true] at h
      subst h
      exact List.mem_cons_self _ _
    · simp only [dictGet?, if_neg hq] at h
      exact List.mem_cons_of_mem _ (ih h)

/-- First-defined alternative on options (used to state fold accumulators). -/
def orO {α : Type} (a b : Option α) : Option α :=
  match a with
  | some x => some x
  | none => b

theorem orO_none {α : Type} (a : Option α) : orO a none = a := by
  cases a <;> rfl

theorem getLast?_cons_eq {β : Type} (a : β) (l : List β) :
    (a :: l).getLast? = some (l.getLast?.getD a) := by
  induction l generalizing a with
  | nil => rfl
  | cons b l ih => simp [List.getLast?_cons_cons, ih b]

/-- The `attack_nodes`-dict half of `buildState`, as a standalone fold. -/
def nodesAcc (acc : List (String × AttackNode)) (vulns : List Vuln) :
    List (String × AttackNode) :=
  vulns.foldl
    (fun d v =>
      match vulnerability_to_node v with
      | some node => dictSet d node.id node
      | none => d)
    acc

theorem buildState_fst (vulns : List Vuln) :
    (buildState vulns).1 = nodesAcc [] vulns := by
  have main : ∀ (l : List Vuln) (ns : List (String × AttackNode)) (g : DiGraph),
      (l.foldl
        (fun st v =>
          match vulnerability_to_node v with
          | some node => (dictSet st.1 node.id node, addNode st.2 node.id)
          | none => st)
        (ns, g)).1 = nodesAcc ns l := by
    intro l
    induction l with
    | nil => intro ns g; rfl
    | cons v rest ih =>
      intro ns g
      simp only [List.foldl_cons, nodesAcc]
      cases h : vulnerability_to_node v <;> simp only [h] <;> exact ih _ _
  exact main vulns [] []

theorem dictGet?_nodesAcc (x : String) : ∀ (l : List Vuln)
    (acc : List (String × AttackNode)),
    dictGet? (nodesAcc acc l) x =
      orO (((l.filterMap vulnerability_to_node).filter
              (fun nd => decide (nd.id = x))).getLast?)
        (dictGet? acc x) := by
  intro l
  induction l with
  | nil => intro acc; simp [nodesAcc, orO]
  | cons v rest ih =>
    intro acc
    cases h : vulnerability_to_node v with
    | none => simpa [nodesAcc, List.foldl_cons, h] using ih acc
    | some nd =>
      have step : nodesAcc acc (v :: rest) = nodesAcc (dictSet acc nd.id nd) rest := by
        simp [nodesAcc, h]
      have hfc : (v :: rest).filterMap vulnerability_to_node
          = nd :: rest.filterMap vulnerability_to_node := by simp [h]
      rw [step, ih, dictGet?_dictSet, hfc]
      by_cases hx : nd.id = x
      · rw [if_pos hx, List.filter_cons_of_pos (by simp [hx]), getLast?_cons_eq]
        cases hl : ((rest.filterMap vulnerability_to_node).filter
            (fun nd => decide (nd.id = x))).getLast? <;> simp [orO, hl]
      · rw [if_neg hx, List.filter_cons_of_neg (by simp [hx])]

theorem nodup_keys_nodesAcc : ∀ (l : List Vuln) (acc : List (String × AttackNode)),
    (acc.map Prod.fst).Nodup → ((nodesAcc acc l).map Prod.fst).Nodup := by
  intro l
  induction l with
  | nil => intro acc h; exact h
  | cons v rest ih =>
    intro acc h
    cases hv : vulnerability_to_node v with
    | none => simpa [nodesAcc, hv] using ih acc h
    | some nd =>
      have step : nodesAcc acc (v :: rest) = nodesAcc (dictSet acc nd.id nd) rest := by
        simp [nodesAcc, hv]
      rw [step]
      exact ih _ (nodup_keys_dictSet acc nd.id nd h)

/-- C10: the `attack_nodes` dict retains exactly one node per id, and for
every id the retained node is the one translated from the LAST record in
input order whose node carries that id (Python dict assignment overwrites). -/
theorem attack_nodes_last_wins_and_unique (vulns : List Vuln) (x : String) :
    dictGet? (build_attack_graph vulns).1 x =
      ((vulns.filterMap vulnerability_to_node).filter
        (fun nd => decide (nd.id = x))).getLast? ∧
    ((build_attack_graph vulns).1.map Prod.fst).Nodup := by
  have h1 : (build_attack_graph vulns).1 = nodesAcc [] vulns := buildState_fst vulns
  constructor
  · rw [h1, dictGet?_nodesAcc]
    simp [dictGet?, orO_none]
  · rw [h1]
    exact nodup_keys_nodesAcc vulns [] (by simp)

/-- C9: a record with no `type` field is translated to no node at all (no
partial translation, no exception — `vuln.get('type', '')` yields `''`,
which misses the rule table), and the built state is exactly as if the
record had not been present; the rest of the run is unaffected. -/
theorem malformed_record_skipped (v : Vuln) (hv : v.type = none) :
    vulnerability_to_node v = none ∧
    ∀ (xs ys : List Vuln),
      build_attack_graph (xs ++ v :: ys) = build_attack_graph (xs ++ ys) := by
  have htr : vulnerability_to_node v = none := by
    simp [vulnerability_to_node, hv, lowerStr, technique_mapping, dictGet?]
  refine ⟨htr, fun xs ys => ?_⟩
  have hbs : buildState (xs ++ v :: ys) = buildState (xs ++ ys) := by
    simp only [buildState, List.foldl_append, List.foldl_cons, htr]
  simp only [build_attack_graph, hbs]

theorem malformed_record_skipped_witness :
    vulnerability_to_node ⟨none, some "mystery", none⟩ = none ∧
    build_attack_graph
        [⟨some "ssh_weak_auth", none, none⟩, ⟨none, some "mystery", none⟩] =
      build_attack_graph [⟨some "ssh_weak_auth", none, none⟩] :=
  ⟨(malformed_record_skipped ⟨none, some "mystery", none⟩ rfl).1,
   (malformed_record_skipped ⟨none, some "mystery", none⟩ rfl).2
     [⟨some "ssh_weak_auth", none, none⟩] []⟩

/-- C8: every node the translator produces carries its severity and
exploitability straight from the rule-table entry for its type, and its
risk score is exactly `severity * 0.7 + exploitability * 10 * 0.3`. -/
theorem risk_score_formula (v : Vuln) (nd : AttackNode)
    (h : vulnerability_to_node v = some nd) :
    nd.get_risk_score = (nd.severity : Rat) * 0.7 + nd.exploitability * 10 * 0.3 ∧
    ∃ q, dictGet? technique_mapping (lowerStr (v.type.getD "")) = some q ∧
      nd.severity = q.2.1 ∧ nd.exploitability = q.2.2.1 := by
  refine ⟨rfl, ?_⟩
  cases hq : dictGet? technique_mapping (lowerStr (v.type.getD "")) with
  | none => simp only [vulnerability_to_node, hq] at h; cases h
  | some q =>
    obtain ⟨t, s, e, ps⟩ := q
    simp only [vulnerability_to_node, hq, Option.some.injEq] at h
    exact ⟨(t, s, e, ps), rfl, by rw [← h], by rw [← h]⟩

theorem risk_score_formula_witness :
    ((vulnerability_to_node ⟨some "ssh_weak_auth", none, none⟩).getD
        dummyNode).get_risk_score =
      (((vulnerability_to_node ⟨some "ssh_weak_auth", none, none⟩).getD
          dummyNode).severity : Rat) * 0.7 +
        ((vulnerability_to_node ⟨some "ssh_weak_auth", none, none⟩).getD
          dummyNode).exploitability * 10 * 0.3 :=
  (risk_score_formula ⟨some "ssh_weak_auth", none, none⟩ _ rfl).1

theorem foldl_min_le_init (l : List AttackNode) (a : Rat) :
    l.foldl (fun acc m => min acc m.exploitability) a ≤ a := by
  induction l generalizing a with
  | nil => simp
  | cons m rest ih => exact le_trans (ih _) (min_le_left _ _)

theorem foldl_min_le_mem (l : List AttackNode) : ∀ (a : Rat) (n : AttackNode),
    n ∈ l → l.foldl (fun acc m => min acc m.exploitability) a ≤ n.exploitability := by
  induction l with
  | nil => intro a n hn; cases hn
  | cons m rest ih =>
    intro a n hn
    rcases List.mem_cons.mp hn with h | h
    · subst h
      exact le_trans (foldl_min_le_init rest _) (min_le_right _ _)
    · exact ih _ _ h

theorem foldl_min_mem (l : List AttackNode) : ∀ (a : Rat),
    l.foldl (fun acc m => min acc m.exploitability) a = a ∨
      l.foldl (fun acc m => min acc m.exploitability) a ∈
        l.map AttackNode.exploitability := by
  induction l with
  | nil => intro a; exact .inl rfl
  | cons m rest ih =>
    intro a
    rw [List.foldl_cons]
    rcases ih (min a m.exploitability) with h | h
    · rw [h]
      rcases le_total a m.exploitability with hle | hle
      · exact .inl (min_eq_left hle)
      · exact .inr (by simp [min_eq_right hle])
    · exact .inr (by rw [List.map_cons]; exact List.mem_cons_of_mem _ h)

theorem foldl_max_init_le (l : List AttackNode) (a : Nat) :
    a ≤ l.foldl (fun acc m => max acc m.severity) a := by
  induction l generalizing a with
  | nil => simp
  | cons m rest ih => exact le_trans (le_max_left _ _) (ih _)

theorem foldl_max_mem_le (l : List AttackNode) : ∀ (a : Nat) (n : AttackNode),
    n ∈ l → n.severity ≤ l.foldl (fun acc m => max acc m.severity) a := by
  induction l with
  | nil => intro a n hn; cases hn
  | cons m rest ih =>
    intro a n hn
    rcases List.mem_cons.mp hn with h | h
    · subst h
      exact le_trans (le_max_right _ _) (foldl_max_init_le rest _)
    · exact ih _ _ h

theorem foldl_max_mem (l : List AttackNode) : ∀ (a : Nat),
    l.foldl (fun acc m => max acc m.severity) a = a ∨
      l.foldl (fun acc m => max acc m.severity) a ∈ l.map AttackNode.severity := by
  induction l with
  | nil => intro a; exact .inl rfl
  | cons m rest ih =>
    intro a
    rw [List.foldl_cons]
    rcases ih (max a m.severity) with h | h
    · rw [h]
      rcases le_total a m.severity with hle | hle
      · exact .inr (by simp [max_eq_right hle])
      · exact .inl (max_eq_left hle)
    · exact .inr (by rw [List.map_cons]; exact List.mem_cons_of_mem _ h)

/-- C7: whenever `_evaluate_path` produces an AttackPath, `total_risk` is the
exact sum of the constituent risk scores, `likelihood` is the minimum
constituent exploitability (it is one of them and bounds all of them below),
and `impact_score` is the maximum constituent severity. -/
theorem path_aggregates (nodes : List (String × AttackNode)) (path : List String)
    (ap : AttackPath) (h : evaluate_path nodes path = some ap) :
    ap.nodes ≠ [] ∧
    ap.total_risk = (ap.nodes.map AttackNode.get_risk_score).sum ∧
    (ap.likelihood ∈ ap.nodes.map AttackNode.exploitability ∧
      ∀ n ∈ ap.nodes, ap.likelihood ≤ n.exploitability) ∧
    (ap.impact_score ∈ ap.nodes.map AttackNode.severity ∧
      ∀ n ∈ ap.nodes, n.severity ≤ ap.impact_score) := by
  cases hm : (path.drop 1).dropLast.mapM (fun nid => dictGet? nodes nid) with
  | none => simp only [evaluate_path, hm] at h; exact Option.noConfusion h
  | some l =>
    cases l with
    | nil => simp only [evaluate_path, hm] at h; exact Option.noConfusion h
    | cons first rest =>
      simp only [evaluate_path, hm, Option.some.injEq] at h
      subst h
      refine ⟨by simp, rfl, ⟨?_, ?_⟩, ⟨?_, ?_⟩⟩
      · rcases foldl_min_mem rest first.exploitability with h | h
        · rw [h]; simp
        · exact List.mem_cons_of_mem _ (by simpa using h)
      · intro n hn
        rcases List.mem_cons.mp hn with hn | hn
        · subst hn; exact foldl_min_le_init rest _
        · exact foldl_min_le_mem rest _ _ hn
      · rcases foldl_max_mem rest first.severity with h | h
        · rw [h]; simp
        · exact List.mem_cons_of_mem _ (by simpa using h)
      · intro n hn
        rcases List.mem_cons.mp hn with hn | hn
        · subst hn; exact foldl_max_init_le rest _
        · exact foldl_max_mem_le rest _ _ hn

theorem path_aggregates_witness :
    (((evaluate_path exNodes
        ["START", "misconfigured_s3", "data_exfiltration", "END"]).getD
          ⟨[], 0, 0, 0, ""⟩).nodes ≠ []) ∧
    ((evaluate_path exNodes
        ["START", "misconfigured_s3", "data_exfiltration", "END"]).getD
          ⟨[], 0, 0, 0, ""⟩).total_risk =
      ((((evaluate_path exNodes
        ["START", "misconfigured_s3", "data_exfiltration", "END"]).getD
          ⟨[], 0, 0, 0, ""⟩).nodes).map AttackNode.get_risk_score).sum ∧
    ((((evaluate_path exNodes
        ["START", "misconfigured_s3", "data_exfiltration", "END"]).getD
          ⟨[], 0, 0, 0, ""⟩).likelihood ∈
        (((evaluate_path exNodes
        ["START", "misconfigured_s3", "data_exfiltration", "END"]).getD
          ⟨[], 0, 0, 0, ""⟩).nodes).map AttackNode.exploitability) ∧
      ∀ n ∈ ((evaluate_path exNodes
        ["START", "misconfigured_s3", "data_exfiltration", "END"]).getD
          ⟨[], 0, 0, 0, ""⟩).nodes,
        ((evaluate_path exNodes
        ["START", "misconfigured_s3", "data_exfiltration", "END"]).getD
          ⟨[], 0, 0, 0, ""⟩).likelihood ≤ n.exploitability) ∧
    ((((evaluate_path exNodes
        ["START", "misconfigured_s3", "data_exfiltration", "END"]).getD
          ⟨[], 0, 0, 0, ""⟩).impact_score ∈
        (((evaluate_path exNodes
        ["START", "misconfigured_s3", "data_exfiltration", "END"]).getD
          ⟨[], 0, 0, 0, ""⟩).nodes).map AttackNode.severity) ∧
      ∀ n ∈ ((evaluate_path exNodes
        ["START", "misconfigured_s3", "data_exfiltration", "END"]).getD
          ⟨[], 0, 0, 0, ""⟩).nodes,
        n.severity ≤ ((evaluate_path exNodes
        ["START", "misconfigured_s3", "data_exfiltration", "END"]).getD
          ⟨[], 0, 0, 0, ""⟩).impact_score) :=
  path_aggregates exNodes ["START", "misconfigured_s3", "data_exfiltration", "END"]
    _ rfl

theorem dictGet?_append {α : Type} (d1 d2 : List (String × α)) (k : String) :
    dictGet? (d1 ++ d2) k = orO (dictGet? d1 k) (dictGet? d2 k) := by
  induction d1 with
  | nil => simp [dictGet?, orO]
  | cons p rest ih =>
    obtain ⟨k', v'⟩ := p
    by_cases h : k' = k
    · simp [dictGet?, h, orO]
    · simp [dictGet?, h, ih]

theorem dictHas_exists_get {α : Type} (d : List (String × α)) (k : String)
    (h : dictHas d k = true) : ∃ v, dictGet? d k = some v := by
  induction d with
  | nil => simp [dictHas] at h
  | cons p rest ih =>
    obtain ⟨k', v'⟩ := p
    by_cases hk : k' = k
    · exact ⟨v', by simp [dictGet?, hk]⟩
    · simp only [dictHas, if_neg hk] at h
      simpa [dictGet?, hk] using ih h

theorem mem_keys_dictSet {α : Type} (d : List (String × α)) (k : String) (v : α)
    (x : String) :
    x ∈ (dictSet d k v).map Prod.fst ↔ x ∈ d.map Prod.fst ∨ x = k := by
  rw [keys_dictSet]
  by_cases h : dictHas d k = true
  · have hk := (dictHas_iff_mem_keys d k).mp h
    rw [if_pos h]
    constructor
    · exact Or.inl
    · rintro (hm | rfl)
      · exact hm
      · exact hk
  · simp [h]

theorem adjList_addNode (g : DiGraph) (x u : String) :
    adjList (addNode g x) u = adjList g u := by
  unfold addNode
  by_cases h : dictHas g x = true
  · simp [h]
  · rw [if_neg h]
    unfold adjList
    rw [dictGet?_append]
    cases hg : dictGet? g u with
    | some val => simp [orO]
    | none => by_cases hx : x = u <;> simp [orO, dictGet?, hx]

theorem mem_nodes_addNode (g : DiGraph) (x y : String) :
    y ∈ nodesOfG (addNode g x) ↔ y ∈ nodesOfG g ∨ y = x := by
  unfold addNode nodesOfG
  by_cases h : dictHas g x = true
  · have hx : x ∈ g.map Prod.fst := (dictHas_iff_mem_keys g x).mp h
    rw [if_pos h]
    constructor
    · exact Or.inl
    · rintro (hm | rfl)
      · exact hm
      · exact hx
  · rw [if_neg h]
    simp

theorem hasEdge_addNode (g : DiGraph) (x u v : String) :
    HasEdge (addNode g x) u v ↔ HasEdge g u v := by
  unfold HasEdge
  rw [adjList_addNode]

theorem dictGet?_mapSet (d : DiGraph) (a b : String) (w : Rat) (u : String) :
    dictGet? (d.map (fun p => if p.1 = a then (p.1, dictSet p.2 b w) else p)) u =
      (dictGet? d u).map (fun val => if u = a then dictSet val b w else val) := by
  induction d with
  | nil => simp [dictGet?]
  | cons p rest ih =>
    obtain ⟨k', v'⟩ := p
    simp only [List.map_cons]
    by_cases hk : k' = a
    · subst hk
      simp only [if_pos rfl]
      by_cases hu : k' = u
      · subst hu
        simp [dictGet?]
      · simp only [dictGet?, if_neg hu]
        exact ih
    · simp only [if_neg hk]
      by_cases hu : k' = u
      · subst hu
        simp [dictGet?, hk]
      · simp only [dictGet?, if_neg hu]
        exact ih

theorem hasEdge_addEdge (g : DiGraph) (a b : String) (w : Rat) (u v : String) :
    HasEdge (addEdge g a b w) u v ↔ HasEdge g u v ∨ (u = a ∧ v = b) := by
  simp only [addEdge, HasEdge, adjList]
  rw [dictGet?_mapSet]
  by_cases hu : u = a
  · subst hu
    have hhas : dictHas (addNode (addNode g u) b) u = true := by
      rw [dictHas_iff_mem_keys]
      exact (mem_nodes_addNode (addNode g u) b u).mpr
        (Or.inl ((mem_nodes_addNode g u u).mpr (Or.inr rfl)))
    obtain ⟨val, hval⟩ := dictHas_exists_get _ _ hhas
    have hadj : (dictGet? g u).getD [] = val := by
      have h1 := adjList_addNode (addNode g u) b u
      have h2 := adjList_addNode g u u
      unfold adjList at h1 h2
      rw [hval] at h1
      rw [← h2, ← h1]
      rfl
    rw [hval]
    simp only [Option.map_some', eq_self_iff_true, ite_true, Option.getD_some, true_and]
    rw [mem_keys_dictSet, ← hadj]
  · have step : ∀ o : Option (List (String × Rat)),
        (o.map (fun val => if u = a then dictSet val b w else val)).getD [] =
          o.getD [] := by
      intro o
      cases o <;> simp [hu]
    rw [step]
    have h1 := adjList_addNode (addNode g a) b u
    have h2 := adjList_addNode g a u
    unfold adjList at h1 h2
    rw [h1, h2]
    constructor
    · exact Or.inl
    · rintro (hm | ⟨rfl, -⟩)
      · exact hm
      · exact absurd rfl hu

theorem mem_nodes_addEdge (g : DiGraph) (a b : String) (w : Rat) (y : String) :
    y ∈ nodesOfG (addEdge g a b w) ↔ y ∈ nodesOfG g ∨ y = a ∨ y = b := by
  simp only [addEdge]
  have hkeys : nodesOfG ((addNode (addNode g a) b).map
      (fun p => if p.1 = a then (p.1, dictSet p.2 b w) else p)) =
      nodesOfG (addNode (addNode g a) b) := by
    unfold nodesOfG
    rw [List.map_map]
    congr 1
    funext p
    by_cases h : p.1 = a <;> simp [h]
  rw [hkeys, mem_nodes_addNode, mem_nodes_addNode]
  tauto

theorem hasEdge_prereq_fold (ns : List (String × AttackNode)) (pid : String) (w : Rat)
    (u v : String) : ∀ (l : List String) (g : DiGraph),
    HasEdge (l.foldl (fun g prereq =>
        if dictHas ns prereq then addEdge g prereq pid w else g) g) u v ↔
      HasEdge g u v ∨ (v = pid ∧ u ∈ l ∧ dictHas ns u = true) := by
  intro l
  induction l with
  | nil => intro g; simp
  | cons a rest ih =>
    intro g
    simp only [List.foldl_cons]
    by_cases ha : dictHas ns a = true
    · rw [if_pos ha, ih, hasEdge_addEdge]
      constructor
      · rintro ((hg | ⟨rfl, rfl⟩) | ⟨rfl, hm, hu⟩)
        · exact Or.inl hg
        · exact Or.inr ⟨rfl, List.mem_cons_self _ _, ha⟩
        · exact Or.inr ⟨rfl, List.mem_cons_of_mem _ hm, hu⟩
      · rintro (hg | ⟨rfl, hm, hu⟩)
        · exact Or.inl (Or.inl hg)
        · rcases List.mem_cons.mp hm with h | h
          · subst h; exact Or.inl (Or.inr ⟨rfl, rfl⟩)
          · exact Or.inr ⟨rfl, h, hu⟩
    · rw [if_neg ha, ih]
      constructor
      · rintro (hg | ⟨rfl, hm, hu⟩)
        · exact Or.inl hg
        · exact Or.inr ⟨rfl, List.mem_cons_of_mem _ hm, hu⟩
      · rintro (hg | ⟨rfl, hm, hu⟩)
        · exact Or.inl hg
        · rcases List.mem_cons.mp hm with h | h
          · subst h; exact absurd hu ha
          · exact Or.inr ⟨rfl, h, hu⟩

theorem hasEdge_ce_fold (ns : List (String × AttackNode)) (u v : String) :
    ∀ (l : List (String × AttackNode)) (g : DiGraph),
    HasEdge (l.foldl (fun g p =>
      let g1 := p.2.prerequisites.foldl
        (fun g prereq =>
          if dictHas ns prereq then addEdge g prereq p.1 p.2.get_risk_score else g)
        g
      if p.2.prerequisites = [] then addEdge g1 "START" p.1 0 else g1) g) u v ↔
      HasEdge g u v ∨ ∃ p ∈ l, v = p.1 ∧
        ((u ∈ p.2.prerequisites ∧ dictHas ns u = true) ∨
         (u = "START" ∧ p.2.prerequisites = [])) := by
  intro l
  induction l with
  | nil => intro g; simp
  | cons p rest ih =>
    intro g
    simp only [List.foldl_cons]
    by_cases hpre : p.2.prerequisites = []
    · simp only [hpre, List.foldl_nil, eq_self_iff_true, ite_true]
      rw [ih, hasEdge_addEdge]
      constructor
      · rintro ((hg | ⟨rfl, rfl⟩) | ⟨q, hq, rfl, hcond⟩)
        · exact Or.inl hg
        · exact Or.inr ⟨p, List.mem_cons_self _ _, rfl, Or.inr ⟨rfl, hpre⟩⟩
        · exact Or.inr ⟨q, List.mem_cons_of_mem _ hq, rfl, hcond⟩
      · rintro (hg | ⟨q, hq, rfl, hcond⟩)
        · exact Or.inl (Or.inl hg)
        · rcases List.mem_cons.mp hq with h | h
          · subst h
            rcases hcond with ⟨hm, -⟩ | ⟨rfl, -⟩
            · rw [hpre] at hm; cases hm
            · exact Or.inl (Or.inr ⟨rfl, rfl⟩)
          · exact Or.inr ⟨q, h, rfl, hcond⟩
    · simp only [if_neg hpre]
      rw [ih, hasEdge_prereq_fold]
      constructor
      · rintro ((hg | ⟨rfl, hm, hd⟩) | ⟨q, hq, rfl, hcond⟩)
        · exact Or.inl hg
        · exact Or.inr ⟨p, List.mem_cons_self _ _, rfl, Or.inl ⟨hm, hd⟩⟩
        · exact Or.inr ⟨q, List.mem_cons_of_mem _ hq, rfl, hcond⟩
      · rintro (hg | ⟨q, hq, rfl, hcond⟩)
        · exact Or.inl (Or.inl hg)
        · rcases List.mem_cons.mp hq with h | h
          · subst h
            rcases hcond with ⟨hm, hd⟩ | ⟨rfl, hq2⟩
            · exact Or.inl (Or.inr ⟨rfl, hm, hd⟩)
            · exact absurd hq2 hpre
          · exact Or.inr ⟨q, h, rfl, hcond⟩

theorem buildState_adj_empty (vulns : List Vuln) :
    ∀ p ∈ (buildState vulns).2, p.2 = ([] : List (String × Rat)) := by
  have main : ∀ (l : List Vuln) (ns : List (String × AttackNode)) (g : DiGraph),
      (∀ p ∈ g, p.2 = ([] : List (String × Rat))) →
      ∀ p ∈ (l.foldl
        (fun st v =>
          match vulnerability_to_node v with
          | some node => (dictSet st.1 node.id node, addNode st.2 node.id)
          | none => st)
        (ns, g)).2, p.2 = [] := by
    intro l
    induction l with
    | nil => intro ns g hg; exact hg
    | cons v rest ih =>
      intro ns g hg
      rw [List.foldl_cons]
      cases hv : vulnerability_to_node v with
      | none => simp only [hv]; exact ih ns g hg
      | some nd =>
        simp only [hv]
        refine ih _ _ ?_
        intro p hp
        unfold addNode at hp
        by_cases h : dictHas g nd.id = true
        · rw [if_pos h] at hp; exact hg p hp
        · rw [if_neg h] at hp
          rcases List.mem_append.mp hp with h1 | h1
          · exact hg p h1
          · rw [List.mem_singleton.mp h1]
  exact main vulns [] [] (by intro p hp; cases hp)

theorem not_hasEdge_buildState (vulns : List Vuln) (u v : String) :
    ¬ HasEdge (buildState vulns).2 u v := by
  intro h
  unfold HasEdge adjList at h
  cases hg : dictGet? (buildState vulns).2 u with
  | none => rw [hg] at h; simp at h
  | some val =>
    rw [hg] at h
    have hempty : val = [] := by
      simpa using buildState_adj_empty vulns (u, val) (mem_of_dictGet?_eq_some _ _ _ hg)
    rw [hempty] at h
    simp at h

theorem buildState_entries_translated (vulns : List Vuln) :
    ∀ p ∈ (buildState vulns).1, ∃ w, vulnerability_to_node w = some p.2 := by
  rw [buildState_fst]
  have main : ∀ (l : List Vuln) (acc : List (String × AttackNode)),
      (∀ p ∈ acc, ∃ w, vulnerability_to_node w = some p.2) →
      ∀ p ∈ nodesAcc acc l, ∃ w, vulnerability_to_node w = some p.2 := by
    intro l
    induction l with
    | nil => intro acc hacc; exact hacc
    | cons v rest ih =>
      intro acc hacc
      cases hv : vulnerability_to_node v with
      | none =>
        have step : nodesAcc acc (v :: rest) = nodesAcc acc rest := by
          simp [nodesAcc, hv]
        rw [step]
        exact ih acc hacc
      | some nd =>
        have step : nodesAcc acc (v :: rest) = nodesAcc (dictSet acc nd.id nd) rest := by
          simp [nodesAcc, hv]
        rw [step]
        refine ih _ ?_
        intro p hp
        rcases mem_dictSet acc nd.id nd p hp with h | h
        · exact ⟨v, by rw [h]; exact hv⟩
        · exact hacc p h
  exact main vulns [] (by intro p hp; cases hp)

theorem nodup_keys_buildState (vulns : List Vuln) :
    ((buildState vulns).1.map Prod.fst).Nodup := by
  rw [buildState_fst]
  exact nodup_keys_nodesAcc vulns [] (by simp)

theorem translate_no_start_prereq (v : Vuln) (nd : AttackNode)
    (h : vulnerability_to_node v = some nd) : "START" ∉ nd.prerequisites := by
  cases hq : dictGet? technique_mapping (lowerStr (v.type.getD "")) with
  | none => simp only [vulnerability_to_node, hq] at h; exact Option.noConfusion h
  | some q =>
    obtain ⟨t, s, e, ps⟩ := q
    have hmem := mem_of_dictGet?_eq_some _ _ _ hq
    simp only [vulnerability_to_node, hq, Option.some.injEq] at h
    have hps : nd.prerequisites = ps := by rw [← h]
    rw [hps]
    simp only [technique_mapping, List.mem_cons, List.not_mem_nil, or_false,
      Prod.mk.injEq] at hmem
    rcases hmem with ⟨-, -, -, -, hx⟩ | ⟨-, -, -, -, hx⟩ | ⟨-, -, -, -, hx⟩ |
        ⟨-, -, -, -, hx⟩ | ⟨-, -, -, -, hx⟩ | ⟨-, -, -, -, hx⟩ |
        ⟨-, -, -, -, hx⟩ | ⟨-, -, -, -, hx⟩ <;>
      subst hx <;> decide

/-- C2 (amended): `START → x` exists in the built graph exactly when the
retained node with id `x` declares an EMPTY prerequisite list.  The code
tests `if not node.prerequisites`, so a node whose declared prerequisites
are merely unmet in this run gets no START edge. -/
theorem start_edge_iff_no_declared_prereqs (vulns : List Vuln) (x : String) :
    HasEdge (build_attack_graph vulns).2 "START" x ↔
      ∃ nd, dictGet? (build_attack_graph vulns).1 x = some nd ∧
        nd.prerequisites = [] := by
  have h2 : (build_attack_graph vulns).2 =
      create_attack_edges (buildState vulns).1 (buildState vulns).2 := rfl
  have h1 : (build_attack_graph vulns).1 = (buildState vulns).1 := rfl
  rw [h2, h1]
  unfold create_attack_edges
  rw [hasEdge_ce_fold]
  constructor
  · rintro (hg | ⟨p, hp, rfl, hcond⟩)
    · exact absurd hg (not_hasEdge_buildState vulns _ _)
    · rcases hcond with ⟨hm, -⟩ | ⟨-, hpre⟩
      · obtain ⟨w, hw⟩ := buildState_entries_translated vulns p hp
        exact absurd hm (translate_no_start_prereq w p.2 hw)
      · exact ⟨p.2, dictGet?_eq_some_of_mem _ (nodup_keys_buildState vulns) p hp, hpre⟩
  · rintro ⟨nd, hget, hpre⟩
    exact Or.inr ⟨(x, nd), mem_of_dictGet?_eq_some _ _ _ hget, rfl, Or.inr ⟨rfl, hpre⟩⟩

theorem hasEdge_add_end_edges (u v : String) : ∀ (ns : List (String × AttackNode))
    (g : DiGraph),
    HasEdge (add_end_edges ns g) u v ↔
      HasEdge g u v ∨
        (v = "END" ∧ ∃ p ∈ ns, u = p.1 ∧
          (strContains p.1 "data_exfiltration" = true ∨
           strContains p.1 "privilege_escalation" = true)) := by
  intro ns
  induction ns with
  | nil => intro g; simp [add_end_edges]
  | cons p rest ih =>
    intro g
    by_cases hp : (strContains p.1 "data_exfiltration" ||
        strContains p.1 "privilege_escalation") = true
    · have se : add_end_edges (p :: rest) g =
          add_end_edges rest (addEdge g p.1 "END" p.2.get_risk_score) := by
        unfold add_end_edges
        rw [List.foldl_cons, if_pos hp]
      rw [se, ih, hasEdge_addEdge]
      have hobj := Bool.or_eq_true_iff.mp hp
      constructor
      · rintro ((hg | ⟨rfl, rfl⟩) | ⟨rfl, q, hq, rfl, hq2⟩)
        · exact Or.inl hg
        · exact Or.inr ⟨rfl, p, List.mem_cons_self _ _, rfl, hobj⟩
        · exact Or.inr ⟨rfl, q, List.mem_cons_of_mem _ hq, rfl, hq2⟩
      · rintro (hg | ⟨rfl, q, hq, rfl, hq2⟩)
        · exact Or.inl (Or.inl hg)
        · rcases List.mem_cons.mp hq with h | h
          · subst h; exact Or.inl (Or.inr ⟨rfl, rfl⟩)
          · exact Or.inr ⟨rfl, q, h, rfl, hq2⟩
    · have se : add_end_edges (p :: rest) g = add_end_edges rest g := by
        unfold add_end_edges
        rw [List.foldl_cons, if_neg hp]
      rw [se, ih]
      constructor
      · rintro (hg | ⟨rfl, q, hq, rfl, hq2⟩)
        · exact Or.inl hg
        · exact Or.inr ⟨rfl, q, List.mem_cons_of_mem _ hq, rfl, hq2⟩
      · rintro (hg | ⟨rfl, q, hq, rfl, hq2⟩)
        · exact Or.inl hg
        · rcases List.mem_cons.mp hq with h | h
          · subst h
            exact absurd (Bool.or_eq_true_iff.mpr hq2) hp
          · exact Or.inr ⟨rfl, q, h, rfl, hq2⟩

theorem mem_nodes_add_end_edges (y : String) : ∀ (ns : List (String × AttackNode))
    (g : DiGraph),
    y ∈ nodesOfG (add_end_edges ns g) ↔
      y ∈ nodesOfG g ∨ ∃ p ∈ ns,
        (strContains p.1 "data_exfiltration" = true ∨
         strContains p.1 "privilege_escalation" = true) ∧ (y = p.1 ∨ y = "END") := by
  intro ns
  induction ns with
  | nil => intro g; simp [add_end_edges]
  | cons p rest ih =>
    intro g
    by_cases hp : (strContains p.1 "data_exfiltration" ||
        strContains p.1 "privilege_escalation") = true
    · have se : add_end_edges (p :: rest) g =
          add_end_edges rest (addEdge g p.1 "END" p.2.get_risk_score) := by
        unfold add_end_edges
        rw [List.foldl_cons, if_pos hp]
      rw [se, ih, mem_nodes_addEdge]
      have hobj := Bool.or_eq_true_iff.mp hp
      constructor
      · rintro ((hg | rfl | rfl) | ⟨q, hq, hq2, hy⟩)
        · exact Or.inl hg
        · exact Or.inr ⟨p, List.mem_cons_self _ _, hobj, Or.inl rfl⟩
        · exact Or.inr ⟨p, List.mem_cons_self _ _, hobj, Or.inr rfl⟩
        · exact Or.inr ⟨q, List.mem_cons_of_mem _ hq, hq2, hy⟩
      · rintro (hg | ⟨q, hq, hq2, hy⟩)
        · exact Or.inl (Or.inl hg)
        · rcases List.mem_cons.mp hq with h | h
          · subst h
            rcases hy with rfl | rfl
            · exact Or.inl (Or.inr (Or.inl rfl))
            · exact Or.inl (Or.inr (Or.inr rfl))
          · exact Or.inr ⟨q, h, hq2, hy⟩
    · have se : add_end_edges (p :: rest) g = add_end_edges rest g := by
        unfold add_end_edges
        rw [List.foldl_cons, if_neg hp]
      rw [se, ih]
      constructor
      · rintro (hg | ⟨q, hq, hq2, hy⟩)
        · exact Or.inl hg
        · exact Or.inr ⟨q, List.mem_cons_of_mem _ hq, hq2, hy⟩
      · rintro (hg | ⟨q, hq, hq2, hy⟩)
        · exact Or.inl hg
        · rcases List.mem_cons.mp hq with h | h
          · subst h
            exact absurd (Bool.or_eq_true_iff.mpr hq2) hp
          · exact Or.inr ⟨q, h, hq2, hy⟩

theorem find_attack_paths_fst (ns : List (String × AttackNode)) (g : DiGraph)
    (k : Nat) : (find_attack_paths ns g k).1 = add_end_edges ns g := by
  simp only [find_attack_paths]
  cases h : all_simple_paths (add_end_edges ns g) <;> simp [h]

/-- C5 (amended): the END pass of `find_attack_paths` adds `x → END` exactly
for the retained attack nodes whose id contains `'data_exfiltration'` or
`'privilege_escalation'` as a substring — the objective list does NOT
include credential dumping (any `x → END` edge already present in the input
graph is kept). -/
theorem end_edge_iff_objective_substring (vulns : List Vuln) (k : Nat) (x : String) :
    HasEdge (find_attack_paths (build_attack_graph vulns).1
        (build_attack_graph vulns).2 k).1 x "END" ↔
      HasEdge (build_attack_graph vulns).2 x "END" ∨
        (dictHas (build_attack_graph vulns).1 x = true ∧
          (strContains x "data_exfiltration" = true ∨
           strContains x "privilege_escalation" = true)) := by
  rw [find_attack_paths_fst, hasEdge_add_end_edges]
  constructor
  · rintro (hg | ⟨-, q, hq, rfl, hq2⟩)
    · exact Or.inl hg
    · refine Or.inr ⟨?_, hq2⟩
      rw [dictHas_iff_mem_keys]
      exact List.mem_map_of_mem Prod.fst hq
  · rintro (hg | ⟨hhas, hobj⟩)
    · exact Or.inl hg
    · obtain ⟨nd, hnd⟩ := dictHas_exists_get _ _ hhas
      exact Or.inr ⟨rfl, (x, nd), mem_of_dictGet?_eq_some _ _ _ hnd, rfl, hobj⟩

/-- C6 (amended): path enumeration is not graph-pure, but its only mutation
is the END-anchor pass: the graph `find_attack_paths` leaves behind has
exactly the input graph's edges plus `node → END` for each objective-id
attack node (and the corresponding vertices); enumeration, scoring and
sorting change nothing else. -/
theorem find_attack_paths_frame (ns : List (String × AttackNode)) (g : DiGraph)
    (k : Nat) (u v y : String) :
    (HasEdge (find_attack_paths ns g k).1 u v ↔
      HasEdge g u v ∨
        (v = "END" ∧ ∃ p ∈ ns, u = p.1 ∧
          (strContains p.1 "data_exfiltration" = true ∨
           strContains p.1 "privilege_escalation" = true))) ∧
    (y ∈ nodesOfG (find_attack_paths ns g k).1 ↔
      y ∈ nodesOfG g ∨ ∃ p ∈ ns,
        (strContains p.1 "data_exfiltration" = true ∨
         strContains p.1 "privilege_escalation" = true) ∧ (y = p.1 ∨ y = "END")) := by
  rw [find_attack_paths_fst]
  exact ⟨hasEdge_add_end_edges u v ns g, mem_nodes_add_end_edges y ns g⟩

/-- C4 (amended): the only cap in `find_attack_paths` applies to the paths
evaluated and returned (`max_paths`) — at most `max_paths` paths come back;
the enumeration itself materialises every simple path with no internal
limit. -/
theorem find_attack_paths_result_capped (ns : List (String × AttackNode))
    (g : DiGraph) (k : Nat) (ps : List AttackPath)
    (h : (find_attack_paths ns g k).2 = .ok ps) : ps.length ≤ k := by
  simp only [find_attack_paths] at h
  cases hall : all_simple_paths (add_end_edges ns g) with
  | error e => rw [hall] at h; simp at h
  | ok all_paths =>
    rw [hall] at h
    simp only [Except.ok.injEq] at h
    rw [← h]
    exact List.length_take_le _ _

/-- The list of ranked paths the example run returns at `max_paths = 1`. -/
def cappedPathsEx : List AttackPath :=
  (find_attack_paths exNodes exGraph 1).2.toOption.getD []

theorem find_attack_paths_result_capped_witness :
    cappedPathsEx.length ≤ 1 :=
  find_attack_paths_result_capped exNodes exGraph 1 cappedPathsEx rfl

theorem dictHas_append {α : Type} (d1 d2 : List (String × α)) (k : String) :
    dictHas (d1 ++ d2) k = (dictHas d1 k || dictHas d2 k) := by
  induction d1 with
  | nil => simp [dictHas]
  | cons p rest ih =>
    obtain ⟨k', v'⟩ := p
    by_cases h : k' = k <;> simp [dictHas, h, ih]

/-- Name of the i-th middle vertex of the star family: `'v'` followed by
`i` copies of `'x'` (all distinct from `START` and `END`). -/
def vname (i : Nat) : String := String.mk ('v' :: List.replicate i 'x')

theorem vname_ne_start (i : Nat) : vname i ≠ "START" := by
  intro h
  have hd : 'v' :: List.replicate i 'x' = ['S', 'T', 'A', 'R', 'T'] :=
    congrArg String.data h
  injection hd with h1 _
  exact absurd h1 (by decide)

theorem vname_ne_end (i : Nat) : vname i ≠ "END" := by
  intro h
  have hd : 'v' :: List.replicate i 'x' = ['E', 'N', 'D'] :=
    congrArg String.data h
  injection hd with h1 _
  exact absurd h1 (by decide)

/-- A star-shaped graph: `START → w → END` for every `w` in `l`; it has one
simple START→END path per middle vertex.  (The attack-graph builder produces
exactly this shape from records of an entry-point type carrying custom ids
that contain an objective substring.) -/
def starG (l : List String) : DiGraph :=
  ("START", l.map (fun w => (w, (0 : Rat)))) ::
    (l.map (fun w => (w, [("END", (0 : Rat))])) ++ [("END", [])])

theorem dictGet?_star_map_mem (l : List String) (c : String) (hc : c ∈ l) :
    dictGet? (l.map (fun w => (w, [("END", (0 : Rat))]))) c =
      some [("END", 0)] := by
  induction l with
  | nil => cases hc
  | cons a rest ih =>
    rw [List.map_cons]
    by_cases h : a = c
    · simp [dictGet?, h]
    · simp only [dictGet?, if_neg h]
      refine ih ?_
      rcases List.mem_cons.mp hc with h1 | h1
      · exact absurd h1.symm h
      · exact h1

theorem dictGet?_star_map_not_mem (l : List String) (c : String) (hc : c ∉ l) :
    dictGet? (l.map (fun w => (w, [("END", (0 : Rat))]))) c = none := by
  induction l with
  | nil => rfl
  | cons a rest ih =>
    rw [List.map_cons]
    have ha : ¬ a = c := fun h => hc (h ▸ List.mem_cons_self a rest)
    simp only [dictGet?, if_neg ha]
    exact ih (fun h => hc (List.mem_cons_of_mem _ h))

theorem adjList_starG_start (l : List String) :
    adjList (starG l) "START" = l.map (fun w => (w, (0 : Rat))) := by
  simp [starG, adjList, dictGet?]

theorem adjList_starG_mem (l : List String) (c : String) (hc : c ∈ l)
    (hcS : c ≠ "START") : adjList (starG l) c = [("END", (0 : Rat))] := by
  unfold starG adjList
  have h1 : ¬ ("START" : String) = c := fun h => hcS h.symm
  simp only [dictGet?, if_neg h1]
  rw [dictGet?_append, dictGet?_star_map_mem l c hc]
  rfl

theorem adjList_starG_end (l : List String) (hE : "END" ∉ l) :
    adjList (starG l) "END" = [] := by
  unfold starG adjList
  have h1 : ¬ ("START" : String) = "END" := by decide
  simp only [dictGet?, if_neg h1]
  rw [dictGet?_append, dictGet?_star_map_not_mem l "END" hE]
  simp [orO, dictGet?]

theorem star_child_paths (l : List String) (hE : "END" ∉ l) (f : Nat) (c : String)
    (hc : c ∈ l) (hcS : c ≠ "START") (hcE : c ≠ "END") :
    dfsPaths (starG l) ["END"] (f + 1) ["START", c] c = [["START", c, "END"]] := by
  have unf : dfsPaths (starG l) ["END"] (f + 1) ["START", c] c =
      (adjList (starG l) c).flatMap
        (fun cw =>
          if cw.1 ∈ (["START", c] : List String) then []
          else
            (if cw.1 ∈ (["END"] : List String) then [["START", c] ++ [cw.1]] else []) ++
              dfsPaths (starG l) ["END"] f (["START", c] ++ [cw.1]) cw.1) := rfl
  rw [unf, adjList_starG_mem l c hc hcS]
  have hdeep : dfsPaths (starG l) ["END"] f (["START", c] ++ ["END"]) "END" = [] := by
    cases f with
    | zero => rfl
    | succ f2 =>
      have unf2 : dfsPaths (starG l) ["END"] (f2 + 1) (["START", c] ++ ["END"]) "END" =
          (adjList (starG l) "END").flatMap
            (fun cw =>
              if cw.1 ∈ ((["START", c] ++ ["END"]) : List String) then []
              else
                (if cw.1 ∈ (["END"] : List String)
                  then [(["START", c] ++ ["END"]) ++ [cw.1]] else []) ++
                  dfsPaths (starG l) ["END"] f2
                    ((["START", c] ++ ["END"]) ++ [cw.1]) cw.1) := rfl
      rw [unf2, adjList_starG_end l hE]
      rfl
  have h1 : ("END" : String) ∉ (["START", c] : List String) := by
    intro hm
    rcases List.mem_cons.mp hm with h | h
    · exact absurd h (by decide)
    · rcases List.mem_cons.mp h with h | h
      · exact hcE h.symm
      · exact absurd h (List.not_mem_nil _)
  have h2 : ("END" : String) ∈ (["END"] : List String) := List.mem_cons_self _ _
  simp only [List.flatMap_cons, List.flatMap_nil, List.append_nil]
  rw [if_neg h1, if_pos h2, hdeep]
  rfl

theorem flatMap_len_one {α β : Type} (F : α → List β) : ∀ (l : List α),
    (∀ a ∈ l, (F a).length = 1) → (l.flatMap F).length = l.length := by
  intro l
  induction l with
  | nil => intro _; rfl
  | cons a rest ih =>
    intro h
    rw [List.flatMap_cons, List.length_append,
      ih (fun b hb => h b (List.mem_cons_of_mem _ hb)),
      h a (List.mem_cons_self _ _)]
    rw [List.length_cons]
    omega

theorem star_paths_length (l : List String) (hS : "START" ∉ l) (hE : "END" ∉ l)
    (f : Nat) :
    (dfsPaths (starG l) ["END"] (f + 2) ["START"] "START").length = l.length := by
  have unf : dfsPaths (starG l) ["END"] (f + 2) ["START"] "START" =
      (adjList (starG l) "START").flatMap
        (fun cw =>
          if cw.1 ∈ (["START"] : List String) then []
          else
            (if cw.1 ∈ (["END"] : List String) then [["START"] ++ [cw.1]] else []) ++
              dfsPaths (starG l) ["END"] (f + 1) (["START"] ++ [cw.1]) cw.1) := rfl
  rw [unf, adjList_starG_start]
  rw [flatMap_len_one _ _ ?_, List.length_map]
  intro cw hcw
  obtain ⟨c, hc, rfl⟩ := List.mem_map.mp hcw
  dsimp only
  have hcS : c ≠ "START" := fun h => hS (h ▸ hc)
  have hcE : c ≠ "END" := fun h => hE (h ▸ hc)
  have h1 : c ∉ (["START"] : List String) := by simp [hcS]
  have h2 : c ∉ (["END"] : List String) := by simp [hcE]
  rw [if_neg h1, if_neg h2, List.nil_append]
  have hv : (["START"] : List String) ++ [c] = ["START", c] := rfl
  rw [hv, star_child_paths l hE f c hc hcS hcE]
  rfl

/-- The middle-vertex names of the star family with `n` vertices. -/
def starNames (n : Nat) : List String := (List.range n).map vname

/-- C4 counterexample: NO bound `C` caps the number of paths the enumeration
inside `find_attack_paths` materialises: for every `C`, the star graph with
`C + 1` middle vertices (the very shape the builder produces from `C + 1`
entry-point records with objective-substring custom ids) makes
`list(nx.all_simple_paths(...))` hold `C + 1` paths. -/
theorem no_cap_on_paths_considered :
    ¬ ∃ C : Nat, ∀ (ns : List (String × AttackNode)) (g : DiGraph),
      pathsConsidered ns g ≤ C := by
  rintro ⟨C, h⟩
  have hS : "START" ∉ starNames (C + 1) := by
    intro hm
    obtain ⟨i, -, hi⟩ := List.mem_map.mp hm
    exact vname_ne_start i hi
  have hE : "END" ∉ starNames (C + 1) := by
    intro hm
    obtain ⟨i, -, hi⟩ := List.mem_map.mp hm
    exact vname_ne_end i hi
  have hstart : dictHas (starG (starNames (C + 1))) "START" = true := by
    simp [starG, dictHas]
  have hend : dictHas (starG (starNames (C + 1))) "END" = true := by
    have hne : ¬ ("START" : String) = "END" := by decide
    simp only [starG, dictHas, if_neg hne]
    rw [dictHas_append]
    simp [dictHas]
  have hall : all_simple_paths (starG (starNames (C + 1))) =
      .ok (dfsPaths (starG (starNames (C + 1))) ["END"]
        ((starG (starNames (C + 1))).length + 1) ["START"] "START") := by
    simp only [all_simple_paths, hstart, hend, eq_self_iff_true, ite_true]
  have hlen3 : (starG (starNames (C + 1))).length + 1 =
      ((starNames (C + 1)).length + 1) + 2 := by
    simp only [starG, List.length_cons, List.length_append, List.length_map,
      List.length_nil]
  have hcount : pathsConsidered [] (starG (starNames (C + 1))) = C + 1 := by
    unfold pathsConsidered
    simp only [add_end_edges, List.foldl_nil, hall]
    rw [hlen3, star_paths_length (starNames (C + 1)) hS hE
      ((starNames (C + 1)).length + 1)]
    simp [starNames]
  have hx := h [] (starG (starNames (C + 1)))
  rw [hcount] at hx
  omega
